import Mathlib

set_option maxHeartbeats 1000000

/-!
Verification development for the ByteStr text type of the tonari repository
(src/bytestr.rs): a cheaply cloneable, zero-copy-sliceable immutable string
backed by a shared reference-counted byte buffer, with a uniqueness-gated
in-place mutation path.

Bytes are modelled as natural numbers (each intended below 256).  The shared
buffer primitive (the external bytes crate) and the standard library UTF-8
validator are not part of the repository source; they are modelled from the
specification of their semantics (spec sections 2, 4 and 7).
-/

/-- The UTF-8 validation error, mirroring std Utf8Error: the number of valid
bytes before the first invalid sequence, and the length of the invalid
sequence (none when input ended inside an incomplete sequence). -/
structure Utf8Error where
  valid_up_to : Nat
  error_len : Option Nat
deriving DecidableEq, Repr

/-- Is a UTF-8 continuation byte (0x80..=0xBF). -/
def utf8Cont (b : Nat) : Bool := decide (0x80 ≤ b ∧ b ≤ 0xBF)

/-- Admissible second byte of a three-byte sequence headed by b, per the
standard UTF-8 validation table (excludes overlong forms and surrogates). -/
def utf8Sec3 (b b1 : Nat) : Bool :=
  decide ((b = 0xE0 ∧ 0xA0 ≤ b1 ∧ b1 ≤ 0xBF) ∨
    (0xE1 ≤ b ∧ b ≤ 0xEC ∧ 0x80 ≤ b1 ∧ b1 ≤ 0xBF) ∨
    (b = 0xED ∧ 0x80 ≤ b1 ∧ b1 ≤ 0x9F) ∨
    (0xEE ≤ b ∧ b ≤ 0xEF ∧ 0x80 ≤ b1 ∧ b1 ≤ 0xBF))

/-- Admissible second byte of a four-byte sequence headed by b (excludes
overlong forms and values above 0x10FFFF). -/
def utf8Sec4 (b b1 : Nat) : Bool :=
  decide ((b = 0xF0 ∧ 0x90 ≤ b1 ∧ b1 ≤ 0xBF) ∨
    (0xF1 ≤ b ∧ b ≤ 0xF3 ∧ 0x80 ≤ b1 ∧ b1 ≤ 0xBF) ∨
    (b = 0xF4 ∧ 0x80 ≤ b1 ∧ b1 ≤ 0x8F))

/-- Modelled from the spec: the standard library UTF-8 validator used by
ByteStr::from_utf8 (str::from_utf8 is not part of this repository).  Walks
the bytes from absolute position i; on failure reports the byte offset of
the first invalid sequence (spec: "validates UTF-8; on failure, returns the
byte offset and reason of the first invalid sequence"). -/
def runUtf8 : List Nat → Nat → Except Utf8Error Unit
  | [], _ => .ok ()
  | b :: rest, i =>
    if b ≤ 0x7F then runUtf8 rest (i + 1)
    else if b ≤ 0xC1 then .error ⟨i, some 1⟩
    else if b ≤ 0xDF then
      match rest with
      | [] => .error ⟨i, none⟩
      | b1 :: r1 =>
        if utf8Cont b1 then runUtf8 r1 (i + 2) else .error ⟨i, some 1⟩
    else if b ≤ 0xEF then
      match rest with
      | [] => .error ⟨i, none⟩
      | b1 :: r1 =>
        if utf8Sec3 b b1 then
          match r1 with
          | [] => .error ⟨i, none⟩
          | b2 :: r2 =>
            if utf8Cont b2 then runUtf8 r2 (i + 3) else .error ⟨i, some 2⟩
        else .error ⟨i, some 1⟩
    else if b ≤ 0xF4 then
      match rest with
      | [] => .error ⟨i, none⟩
      | b1 :: r1 =>
        if utf8Sec4 b b1 then
          match r1 with
          | [] => .error ⟨i, none⟩
          | b2 :: r2 =>
            if utf8Cont b2 then
              match r2 with
              | [] => .error ⟨i, none⟩
              | b3 :: r3 =>
                if utf8Cont b3 then runUtf8 r3 (i + 4) else .error ⟨i, some 3⟩
            else .error ⟨i, some 2⟩
        else .error ⟨i, some 1⟩
    else .error ⟨i, some 1⟩

/-- The standard UTF-8 encoding of a scalar value c as a byte list. -/
def encodeUtf8Char (c : Nat) : List Nat :=
  if c ≤ 0x7F then [c]
  else if c ≤ 0x7FF then [0xC0 + c / 64, 0x80 + c % 64]
  else if c ≤ 0xFFFF then
    [0xE0 + c / 4096, 0x80 + (c / 64) % 64, 0x80 + c % 64]
  else [0xF0 + c / 262144, 0x80 + (c / 4096) % 64, 0x80 + (c / 64) % 64,
    0x80 + c % 64]

/-- A Unicode scalar value: a code point that is not a surrogate. -/
def IsScalarValue (c : Nat) : Prop :=
  c ≤ 0x10FFFF ∧ ¬(0xD800 ≤ c ∧ c ≤ 0xDFFF)

/-- A byte list is valid UTF-8 text: it is the concatenation of the standard
encodings of a sequence of Unicode scalar values.  This is the specification
side; the executable validator runUtf8 is proved equivalent to it below. -/
inductive ValidUtf8 : List Nat → Prop
  | nil : ValidUtf8 []
  | cons (c : Nat) (rest : List Nat) : IsScalarValue c → ValidUtf8 rest →
      ValidUtf8 (encodeUtf8Char c ++ rest)

/-! ### The shared buffer primitive and the world of allocations -/

/-- Modelled from the spec (section 2): what a handle's storage is: static
process-lifetime data, or a heap allocation named by an identifier. -/
inductive Backing where
  | stat (data : List Nat) : Backing
  | heap (id : Nat) : Backing
deriving DecidableEq, Repr

/-- Modelled from the spec (section 2): the state outside any one handle:
contents of each heap allocation, its reference count, and a source of fresh
allocation identifiers. -/
structure World where
  mem : Nat → List Nat
  counts : Nat → Nat
  next : Nat

/-- Pointwise update of an allocation table. -/
def upd (f : Nat → α) (k : Nat) (v : α) : Nat → α :=
  fun n => if n = k then v else f n

/-- The full contents of the storage a backing refers to. -/
def Backing.data (bk : Backing) (w : World) : List Nat :=
  match bk with
  | .stat d => d
  | .heap id => w.mem id

/-- Modelled from the spec (section 2): a shared-buffer handle (the external
Bytes type): a reference to a backing allocation plus a logical view
(offset + length) into it. -/
structure Bytes where
  backing : Backing
  off : Nat
  len : Nat
deriving DecidableEq, Repr

/-- The bytes visible through a handle's logical view. -/
def Bytes.view (b : Bytes) (w : World) : List Nat :=
  ((b.backing.data w).drop b.off).take b.len

/-- The handle's view lies inside its backing storage; every handle the
buffer primitive hands out satisfies this. -/
def Bytes.Wf (b : Bytes) (w : World) : Prop :=
  b.off + b.len ≤ (b.backing.data w).length

/-- Bytes::new — empty, backed by no allocation (static empty slice). -/
def Bytes.new : Bytes := ⟨.stat [], 0, 0⟩

/-- Bytes::from_static — points directly at the static data; no allocation,
no copying. -/
def Bytes.from_static (d : List Nat) : Bytes := ⟨.stat d, 0, d.length⟩

/-- Modelled from the spec: Bytes::copy_from_slice allocates fresh storage
with reference count one and copies the bytes into it. -/
def Bytes.copy_from_slice (w : World) (d : List Nat) : World × Bytes :=
  ({ mem := upd w.mem w.next d, counts := upd w.counts w.next 1,
     next := w.next + 1 },
   ⟨.heap w.next, 0, d.length⟩)

/-- Modelled from the spec: Bytes::from an owned buffer (Vec of u8, boxed
slice): the buffer becomes a fresh uniquely-referenced allocation; ownership
moves, and the model registers the storage under a fresh identifier. -/
def Bytes.from_owned (w : World) (d : List Nat) : World × Bytes :=
  Bytes.copy_from_slice w d

/-- Modelled from the spec (section 2): cheap clone — one more reference to
the same allocation, no bytes copied; static storage is not counted. -/
def Bytes.clone (b : Bytes) (w : World) : World × Bytes :=
  match b.backing with
  | .stat _ => (w, b)
  | .heap id => ({ w with counts := upd w.counts id (w.counts id + 1) }, b)

/-- Modelled from the spec (section 3): dropping a handle decrements the
shared count; static storage is never freed nor counted. -/
def Bytes.dropRef (b : Bytes) (w : World) : World :=
  match b.backing with
  | .stat _ => w
  | .heap id => { w with counts := upd w.counts id (w.counts id - 1) }

/-- Bytes::is_unique — true iff this handle is the only reference to the
data; always false when the data is backed by a static slice. -/
def Bytes.is_unique (b : Bytes) (w : World) : Bool :=
  match b.backing with
  | .stat _ => false
  | .heap id => decide (w.counts id = 1)

/-- A borrowed str slice: a location (backing + offset) and a length.  The
Rust str type guarantees the visible bytes are valid UTF-8; theorems carry
that as a hypothesis where it matters. -/
structure StrRef where
  backing : Backing
  off : Nat
  len : Nat
deriving DecidableEq, Repr

/-- The bytes a borrowed str slice denotes. -/
def StrRef.view (s : StrRef) (w : World) : List Nat :=
  ((s.backing.data w).drop s.off).take s.len

/-- The subset's address range lies within the handle's view range: same
allocation, offsets inside the view. -/
def Bytes.ContainsRef (b : Bytes) (s : StrRef) : Prop :=
  s.backing = b.backing ∧ b.off ≤ s.off ∧ s.off + s.len ≤ b.off + b.len

instance instDecContainsRef (b : Bytes) (s : StrRef) :
    Decidable (b.ContainsRef s) := by
  unfold Bytes.ContainsRef
  infer_instance

/-- Modelled from the spec (section 4, from_subrange): when the subset lies
within the handle's storage range, return a handle over the same allocation
restricted to that range (zero copy, one more reference); otherwise fail
fast — the panic is modelled as none. -/
def Bytes.slice_ref (b : Bytes) (w : World) (s : StrRef) :
    Option (World × Bytes) :=
  if b.ContainsRef s then
    some ((b.clone w).1, ⟨b.backing, s.off, s.len⟩)
  else none

/-! ### The ByteStr wrapper (src/bytestr.rs) -/

/-- ByteStr — an immutable string backed by Bytes; the invariant that the
visible bytes are valid UTF-8 is proved below, not assumed. -/
structure ByteStr where
  bytes : Bytes
deriving DecidableEq, Repr

/-- ByteStr::new — empty, no allocation. -/
def ByteStr.new : ByteStr := ⟨Bytes.new⟩

/-- ByteStr::from_utf8 — validate the bytes, then wrap the input with no
copying; on failure return the validation error. -/
def ByteStr.from_utf8 (b : Bytes) (w : World) : Except Utf8Error ByteStr :=
  match runUtf8 (b.view w) 0 with
  | .ok _ => .ok ⟨b⟩
  | .error e => .error e

/-- ByteStr::from_slice_of — Bytes::slice_ref on the given buffer, wrapped. -/
def ByteStr.from_slice_of (sub : StrRef) (b : Bytes) (w : World) :
    Option (World × ByteStr) :=
  match b.slice_ref w sub with
  | some (w2, r) => some (w2, ⟨r⟩)
  | none => none

/-- ByteStr::copy_from_str — copy the str into fresh storage. -/
def ByteStr.copy_from_str (d : List Nat) (w : World) : World × ByteStr :=
  ((Bytes.copy_from_slice w d).1, ⟨(Bytes.copy_from_slice w d).2⟩)

/-- ByteStr::from_static — points directly at the static str. -/
def ByteStr.from_static (d : List Nat) : ByteStr := ⟨Bytes.from_static d⟩

/-- ByteStr::try_mut — take the Bytes, try to reclaim exclusive ownership of
the entire allocation (Bytes::try_into_mut); if sole owner, run the edit on
the text in place and refreeze over the same allocation, returning true;
otherwise restore the handle unchanged and return false.  The callback gets
a mutable str view, so it cannot change the byte length and must leave valid
UTF-8 — Rust type guarantees, carried as hypotheses by the theorems. -/
def ByteStr.try_mut (s : ByteStr) (w : World) (f : List Nat → List Nat) :
    World × ByteStr × Bool :=
  match s.bytes.backing with
  | .stat _ => (w, s, false)
  | .heap id =>
    if w.counts id = 1 then
      let newData := (w.mem id).take s.bytes.off
        ++ f (((w.mem id).drop s.bytes.off).take s.bytes.len)
        ++ (w.mem id).drop (s.bytes.off + s.bytes.len)
      ({ w with mem := upd w.mem id newData }, s, true)
    else (w, s, false)

/-- ByteStr::clear — Bytes::clear truncates this handle's own view to length
zero; allocation contents and reference counts are untouched. -/
def ByteStr.clear (s : ByteStr) (w : World) : World × ByteStr :=
  (w, ⟨⟨s.bytes.backing, s.bytes.off, 0⟩⟩)

/-- ByteStr::is_unique — delegates to Bytes::is_unique. -/
def ByteStr.is_unique (s : ByteStr) (w : World) : Bool :=
  s.bytes.is_unique w

/-- ByteStr::as_str — the visible bytes, read as the string they encode. -/
def ByteStr.as_str (s : ByteStr) (w : World) : List Nat :=
  s.bytes.view w

/-- AsRef of u8 slice — the same visible bytes. -/
def ByteStr.as_bytes (s : ByteStr) (w : World) : List Nat :=
  s.bytes.view w

/-- ByteStr::slice_ref — Bytes::slice_ref on this handle's own storage. -/
def ByteStr.slice_ref (s : ByteStr) (sub : StrRef) (w : World) :
    Option (World × ByteStr) :=
  ByteStr.from_slice_of sub s.bytes w

/-- ByteStr::into_string — the owned String, modelled by its UTF-8 bytes. -/
def ByteStr.into_string (s : ByteStr) (w : World) : List Nat :=
  s.bytes.view w

/-- ByteStr::into_bytes — hands back the underlying Bytes. -/
def ByteStr.into_bytes (s : ByteStr) : Bytes :=
  s.bytes

/-- derive(Clone) for ByteStr — clones the underlying Bytes: one more
reference to the same allocation, same view, no bytes copied. -/
def ByteStr.clone (s : ByteStr) (w : World) : World × ByteStr :=
  ((s.bytes.clone w).1, ⟨(s.bytes.clone w).2⟩)

/-- Dropping a ByteStr releases its reference on the allocation. -/
def ByteStr.dropRef (s : ByteStr) (w : World) : World :=
  s.bytes.dropRef w

/-- PartialEq for ByteStr — str equality of the decoded contents, never
allocation identity. -/
def ByteStr.beq (a b : ByteStr) (w : World) : Bool :=
  decide (a.as_str w = b.as_str w)

/-- From<String> and From<Box<str>> — wrap the owned buffer: a fresh
uniquely-referenced allocation, ownership moved. -/
def ByteStr.from_string (d : List Nat) (w : World) : World × ByteStr :=
  ((Bytes.from_owned w d).1, ⟨(Bytes.from_owned w d).2⟩)

/-- Cow<'static, str>, as consumed by the From impl. -/
inductive CowStr where
  | borrowed (d : List Nat) : CowStr
  | owned (d : List Nat) : CowStr

/-- The text a Cow value holds. -/
def CowStr.data : CowStr → List Nat
  | .borrowed d => d
  | .owned d => d

/-- From<Cow<'static, str>> — dispatches to the static or owned path. -/
def ByteStr.from_cow (c : CowStr) (w : World) : World × ByteStr :=
  match c with
  | .borrowed d => (w, ByteStr.from_static d)
  | .owned d => ByteStr.from_string d w

/-- str::make_ascii_lowercase as a byte transformation: ASCII capitals get
0x20 added, everything else is untouched. -/
def make_ascii_lowercase (l : List Nat) : List Nat :=
  l.map (fun b => if 0x41 ≤ b ∧ b ≤ 0x5A then b + 0x20 else b)

/-- A world with no live allocations. -/
def World.empty : World := ⟨fun _ => [], fun _ => 0, 0⟩

/-! ### Safe reachability and the UTF-8 invariant -/

/-- Handles reachable through the safe public API, together with the world
state as it evolves.  Rust str arguments carry their type guarantee (their
bytes are valid UTF-8) as a hypothesis, and Bytes arguments carry view
well-formedness; a try_mut callback receives a mutable str, so it keeps the
byte length and yields valid UTF-8. -/
inductive Built : World → ByteStr → Prop
  | new (w : World) : Built w ByteStr.new
  | from_utf8 (w : World) (b : Bytes) (s : ByteStr) (hwf : b.Wf w)
      (h : ByteStr.from_utf8 b w = .ok s) : Built w s
  | from_static (w : World) (d : List Nat) (hv : ValidUtf8 d) :
      Built w (ByteStr.from_static d)
  | copy_from_str (w : World) (d : List Nat) (hv : ValidUtf8 d) :
      Built (ByteStr.copy_from_str d w).1 (ByteStr.copy_from_str d w).2
  | from_string (w : World) (d : List Nat) (hv : ValidUtf8 d) :
      Built (ByteStr.from_string d w).1 (ByteStr.from_string d w).2
  | from_cow (w : World) (c : CowStr) (hv : ValidUtf8 c.data) :
      Built (ByteStr.from_cow c w).1 (ByteStr.from_cow c w).2
  | from_slice_of (w w2 : World) (sub : StrRef) (b : Bytes) (s : ByteStr)
      (hwf : b.Wf w) (hv : ValidUtf8 (sub.view w))
      (h : ByteStr.from_slice_of sub b w = some (w2, s)) : Built w2 s
  | slice_ref (w w2 : World) (s r : ByteStr) (sub : StrRef)
      (hb : Built w s) (hv : ValidUtf8 (sub.view w))
      (h : s.slice_ref sub w = some (w2, r)) : Built w2 r
  | slice_orig (w w2 : World) (s r : ByteStr) (sub : StrRef)
      (hb : Built w s)
      (h : s.slice_ref sub w = some (w2, r)) : Built w2 s
  | clear (w : World) (s : ByteStr) (hb : Built w s) :
      Built (s.clear w).1 (s.clear w).2
  | try_mut (w : World) (s : ByteStr) (f : List Nat → List Nat)
      (hb : Built w s)
      (hf : ∀ v, ValidUtf8 v → ValidUtf8 (f v))
      (hlen : ∀ v, (f v).length = v.length) :
      Built (s.try_mut w f).1 (s.try_mut w f).2.1
  | clone (w : World) (s : ByteStr) (hb : Built w s) :
      Built (s.clone w).1 (s.clone w).2
  | clone_orig (w : World) (s : ByteStr) (hb : Built w s) :
      Built (s.clone w).1 s
  | drop_other (w : World) (s t : ByteStr) (hb : Built w s) :
      Built (t.dropRef w) s

/-! ### Concrete scenario data -/

/-- The bytes of "Content-Type". -/
def contentTypeBytes : List Nat :=
  [67, 111, 110, 116, 101, 110, 116, 45, 84, 121, 112, 101]

/-- The bytes of "content-type". -/
def contentTypeLower : List Nat :=
  [99, 111, 110, 116, 101, 110, 116, 45, 116, 121, 112, 101]

/-- A = copy_from_str("Content-Type") in the empty world. -/
def c3A : World × ByteStr := ByteStr.copy_from_str contentTypeBytes World.empty

/-- B = A.clone(). -/
def c3B : World × ByteStr := (c3A.2).clone c3A.1

/-- First mutation attempt, while B is alive. -/
def c3Try1 : World × ByteStr × Bool :=
  (c3A.2).try_mut c3B.1 make_ascii_lowercase

/-- The world after B is dropped. -/
def c3AfterDrop : World := (c3B.2).dropRef c3Try1.1

/-- Second mutation attempt, after B was dropped. -/
def c3Try2 : World × ByteStr × Bool :=
  (c3Try1.2.1).try_mut c3AfterDrop make_ascii_lowercase

/-- The backing allocation is shared with at least one other holder; static
storage counts as permanently shared. -/
def ByteStr.shared_elsewhere (s : ByteStr) (w : World) : Bool :=
  match s.bytes.backing with
  | .stat _ => true
  | .heap id => decide (2 ≤ w.counts id)

/-- The invalid input of the rejection scenario: [48 65 FF 6C 6C 6F]. -/
def heBytes : Bytes := Bytes.from_static [0x48, 0x65, 0xFF, 0x6C, 0x6C, 0x6F]

/-- copy_from_str("abc") in the empty world. -/
def c9Pair : World × ByteStr := ByteStr.copy_from_str [97, 98, 99] World.empty

/-! Branch reduction lemmas for the validator: one per control path. -/

theorem runUtf8_ascii {b : Nat} (hb : b ≤ 0x7F) (rest : List Nat) (i : Nat) :
    runUtf8 (b :: rest) i = runUtf8 rest (i + 1) := by
  conv_lhs => rw [runUtf8.eq_def]
  dsimp only
  rw [if_pos hb]

theorem runUtf8_badstart {b : Nat} (hb : 0x80 ≤ b) (hb2 : b ≤ 0xC1)
    (rest : List Nat) (i : Nat) :
    runUtf8 (b :: rest) i = .error ⟨i, some 1⟩ := by
  conv_lhs => rw [runUtf8.eq_def]
  dsimp only
  rw [if_neg (by omega), if_pos (by omega)]

theorem runUtf8_two {b b1 : Nat} (hb : 0xC2 ≤ b) (hb2 : b ≤ 0xDF)
    (h1 : utf8Cont b1 = true) (rest : List Nat) (i : Nat) :
    runUtf8 (b :: b1 :: rest) i = runUtf8 rest (i + 2) := by
  conv_lhs => rw [runUtf8.eq_def]
  dsimp only
  rw [if_neg (by omega), if_neg (by omega), if_pos (by omega), if_pos h1]

theorem runUtf8_two_end {b : Nat} (hb : 0xC2 ≤ b) (hb2 : b ≤ 0xDF) (i : Nat) :
    runUtf8 [b] i = .error ⟨i, none⟩ := by
  conv_lhs => rw [runUtf8.eq_def]
  dsimp only
  rw [if_neg (by omega), if_neg (by omega), if_pos (by omega)]

theorem runUtf8_two_badcont {b b1 : Nat} (hb : 0xC2 ≤ b) (hb2 : b ≤ 0xDF)
    (h1 : ¬utf8Cont b1 = true) (rest : List Nat) (i : Nat) :
    runUtf8 (b :: b1 :: rest) i = .error ⟨i, some 1⟩ := by
  conv_lhs => rw [runUtf8.eq_def]
  dsimp only
  rw [if_neg (by omega), if_neg (by omega), if_pos (by omega), if_neg h1]

theorem runUtf8_three {b b1 b2 : Nat} (hb : 0xE0 ≤ b) (hb2 : b ≤ 0xEF)
    (h1 : utf8Sec3 b b1 = true) (h2 : utf8Cont b2 = true)
    (rest : List Nat) (i : Nat) :
    runUtf8 (b :: b1 :: b2 :: rest) i = runUtf8 rest (i + 3) := by
  conv_lhs => rw [runUtf8.eq_def]
  dsimp only
  rw [if_neg (by omega), if_neg (by omega), if_neg (by omega), if_pos (by omega),
    if_pos h1, if_pos h2]

theorem runUtf8_three_end1 {b : Nat} (hb : 0xE0 ≤ b) (hb2 : b ≤ 0xEF) (i : Nat) :
    runUtf8 [b] i = .error ⟨i, none⟩ := by
  conv_lhs => rw [runUtf8.eq_def]
  dsimp only
  rw [if_neg (by omega), if_neg (by omega), if_neg (by omega), if_pos (by omega)]

theorem runUtf8_three_badsec {b b1 : Nat} (hb : 0xE0 ≤ b) (hb2 : b ≤ 0xEF)
    (h1 : ¬utf8Sec3 b b1 = true) (rest : List Nat) (i : Nat) :
    runUtf8 (b :: b1 :: rest) i = .error ⟨i, some 1⟩ := by
  conv_lhs => rw [runUtf8.eq_def]
  dsimp only
  rw [if_neg (by omega), if_neg (by omega), if_neg (by omega), if_pos (by omega),
    if_neg h1]

theorem runUtf8_three_end2 {b b1 : Nat} (hb : 0xE0 ≤ b) (hb2 : b ≤ 0xEF)
    (h1 : utf8Sec3 b b1 = true) (i : Nat) :
    runUtf8 [b, b1] i = .error ⟨i, none⟩ := by
  conv_lhs => rw [runUtf8.eq_def]
  dsimp only
  rw [if_neg (by omega), if_neg (by omega), if_neg (by omega), if_pos (by omega),
    if_pos h1]

theorem runUtf8_three_badcont {b b1 b2 : Nat} (hb : 0xE0 ≤ b) (hb2 : b ≤ 0xEF)
    (h1 : utf8Sec3 b b1 = true) (h2 : ¬utf8Cont b2 = true)
    (rest : List Nat) (i : Nat) :
    runUtf8 (b :: b1 :: b2 :: rest) i = .error ⟨i, some 2⟩ := by
  conv_lhs => rw [runUtf8.eq_def]
  dsimp only
  rw [if_neg (by omega), if_neg (by omega), if_neg (by omega), if_pos (by omega),
    if_pos h1, if_neg h2]

theorem runUtf8_four {b b1 b2 b3 : Nat} (hb : 0xF0 ≤ b) (hb2 : b ≤ 0xF4)
    (h1 : utf8Sec4 b b1 = true) (h2 : utf8Cont b2 = true)
    (h3 : utf8Cont b3 = true) (rest : List Nat) (i : Nat) :
    runUtf8 (b :: b1 :: b2 :: b3 :: rest) i = runUtf8 rest (i + 4) := by
  conv_lhs => rw [runUtf8.eq_def]
  dsimp only
  rw [if_neg (by omega), if_neg (by omega), if_neg (by omega), if_neg (by omega),
    if_pos (by omega), if_pos h1, if_pos h2, if_pos h3]

theorem runUtf8_four_end1 {b : Nat} (hb : 0xF0 ≤ b) (hb2 : b ≤ 0xF4) (i : Nat) :
    runUtf8 [b] i = .error ⟨i, none⟩ := by
  conv_lhs => rw [runUtf8.eq_def]
  dsimp only
  rw [if_neg (by omega), if_neg (by omega), if_neg (by omega), if_neg (by omega),
    if_pos (by omega)]

theorem runUtf8_four_badsec {b b1 : Nat} (hb : 0xF0 ≤ b) (hb2 : b ≤ 0xF4)
    (h1 : ¬utf8Sec4 b b1 = true) (rest : List Nat) (i : Nat) :
    runUtf8 (b :: b1 :: rest) i = .error ⟨i, some 1⟩ := by
  conv_lhs => rw [runUtf8.eq_def]
  dsimp only
  rw [if_neg (by omega), if_neg (by omega), if_neg (by omega), if_neg (by omega),
    if_pos (by omega), if_neg h1]

theorem runUtf8_four_end2 {b b1 : Nat} (hb : 0xF0 ≤ b) (hb2 : b ≤ 0xF4)
    (h1 : utf8Sec4 b b1 = true) (i : Nat) :
    runUtf8 [b, b1] i = .error ⟨i, none⟩ := by
  conv_lhs => rw [runUtf8.eq_def]
  dsimp only
  rw [if_neg (by omega), if_neg (by omega), if_neg (by omega), if_neg (by omega),
    if_pos (by omega), if_pos h1]

theorem runUtf8_four_badcont2 {b b1 b2 : Nat} (hb : 0xF0 ≤ b) (hb2 : b ≤ 0xF4)
    (h1 : utf8Sec4 b b1 = true) (h2 : ¬utf8Cont b2 = true)
    (rest : List Nat) (i : Nat) :
    runUtf8 (b :: b1 :: b2 :: rest) i = .error ⟨i, some 2⟩ := by
  conv_lhs => rw [runUtf8.eq_def]
  dsimp only
  rw [if_neg (by omega), if_neg (by omega), if_neg (by omega), if_neg (by omega),
    if_pos (by omega), if_pos h1, if_neg h2]

theorem runUtf8_four_end3 {b b1 b2 : Nat} (hb : 0xF0 ≤ b) (hb2 : b ≤ 0xF4)
    (h1 : utf8Sec4 b b1 = true) (h2 : utf8Cont b2 = true) (i : Nat) :
    runUtf8 [b, b1, b2] i = .error ⟨i, none⟩ := by
  conv_lhs => rw [runUtf8.eq_def]
  dsimp only
  rw [if_neg (by omega), if_neg (by omega), if_neg (by omega), if_neg (by omega),
    if_pos (by omega), if_pos h1, if_pos h2]

theorem runUtf8_four_badcont3 {b b1 b2 b3 : Nat} (hb : 0xF0 ≤ b) (hb2 : b ≤ 0xF4)
    (h1 : utf8Sec4 b b1 = true) (h2 : utf8Cont b2 = true)
    (h3 : ¬utf8Cont b3 = true) (rest : List Nat) (i : Nat) :
    runUtf8 (b :: b1 :: b2 :: b3 :: rest) i = .error ⟨i, some 3⟩ := by
  conv_lhs => rw [runUtf8.eq_def]
  dsimp only
  rw [if_neg (by omega), if_neg (by omega), if_neg (by omega), if_neg (by omega),
    if_pos (by omega), if_pos h1, if_pos h2, if_neg h3]

theorem runUtf8_hi {b : Nat} (hb : 0xF5 ≤ b) (rest : List Nat) (i : Nat) :
    runUtf8 (b :: rest) i = .error ⟨i, some 1⟩ := by
  conv_lhs => rw [runUtf8.eq_def]
  dsimp only
  rw [if_neg (by omega), if_neg (by omega), if_neg (by omega), if_neg (by omega),
    if_neg (by omega)]

/-! Building ValidUtf8 values from byte-level branch conditions. -/

theorem validUtf8_cons1 {b : Nat} (hb : b ≤ 0x7F) {rest : List Nat}
    (h : ValidUtf8 rest) : ValidUtf8 (b :: rest) := by
  have hs : IsScalarValue b := ⟨by omega, by omega⟩
  have he : encodeUtf8Char b = [b] := by rw [encodeUtf8Char, if_pos hb]
  have h2 := ValidUtf8.cons b rest hs h
  rw [he] at h2
  exact h2

theorem validUtf8_cons2 {b b1 : Nat} (hb : 0xC2 ≤ b) (hb2 : b ≤ 0xDF)
    (h1 : utf8Cont b1 = true) {rest : List Nat} (h : ValidUtf8 rest) :
    ValidUtf8 (b :: b1 :: rest) := by
  simp only [utf8Cont, decide_eq_true_eq] at h1
  have hs : IsScalarValue ((b - 0xC0) * 64 + (b1 - 0x80)) := ⟨by omega, by omega⟩
  have he : encodeUtf8Char ((b - 0xC0) * 64 + (b1 - 0x80)) = [b, b1] := by
    rw [encodeUtf8Char, if_neg (by omega), if_pos (by omega)]
    have e1 : 0xC0 + ((b - 0xC0) * 64 + (b1 - 0x80)) / 64 = b := by omega
    have e2 : 0x80 + ((b - 0xC0) * 64 + (b1 - 0x80)) % 64 = b1 := by omega
    rw [e1, e2]
  have h2 := ValidUtf8.cons ((b - 0xC0) * 64 + (b1 - 0x80)) rest hs h
  rw [he] at h2
  exact h2

theorem validUtf8_cons3 {b b1 b2 : Nat} (hb : 0xE0 ≤ b) (hb2 : b ≤ 0xEF)
    (h1 : utf8Sec3 b b1 = true) (h2 : utf8Cont b2 = true) {rest : List Nat}
    (h : ValidUtf8 rest) : ValidUtf8 (b :: b1 :: b2 :: rest) := by
  simp only [utf8Sec3, decide_eq_true_eq] at h1
  simp only [utf8Cont, decide_eq_true_eq] at h2
  have hs : IsScalarValue ((b - 0xE0) * 4096 + (b1 - 0x80) * 64 + (b2 - 0x80)) :=
    ⟨by omega, by omega⟩
  have he : encodeUtf8Char ((b - 0xE0) * 4096 + (b1 - 0x80) * 64 + (b2 - 0x80)) =
      [b, b1, b2] := by
    rw [encodeUtf8Char, if_neg (by omega), if_neg (by omega), if_pos (by omega)]
    have e1 : 0xE0 + ((b - 0xE0) * 4096 + (b1 - 0x80) * 64 + (b2 - 0x80)) / 4096
        = b := by omega
    have e2 : 0x80 + ((b - 0xE0) * 4096 + (b1 - 0x80) * 64 + (b2 - 0x80)) / 64 % 64
        = b1 := by omega
    have e3 : 0x80 + ((b - 0xE0) * 4096 + (b1 - 0x80) * 64 + (b2 - 0x80)) % 64
        = b2 := by omega
    rw [e1, e2, e3]
  have h3 := ValidUtf8.cons ((b - 0xE0) * 4096 + (b1 - 0x80) * 64 + (b2 - 0x80))
    rest hs h
  rw [he] at h3
  exact h3

theorem validUtf8_cons4 {b b1 b2 b3 : Nat} (hb : 0xF0 ≤ b) (hb2 : b ≤ 0xF4)
    (h1 : utf8Sec4 b b1 = true) (h2 : utf8Cont b2 = true)
    (h3 : utf8Cont b3 = true) {rest : List Nat} (h : ValidUtf8 rest) :
    ValidUtf8 (b :: b1 :: b2 :: b3 :: rest) := by
  simp only [utf8Sec4, decide_eq_true_eq] at h1
  simp only [utf8Cont, decide_eq_true_eq] at h2 h3
  have hs : IsScalarValue
      ((b - 0xF0) * 262144 + (b1 - 0x80) * 4096 + (b2 - 0x80) * 64 + (b3 - 0x80)) :=
    ⟨by omega, by omega⟩
  have he : encodeUtf8Char
      ((b - 0xF0) * 262144 + (b1 - 0x80) * 4096 + (b2 - 0x80) * 64 + (b3 - 0x80)) =
      [b, b1, b2, b3] := by
    rw [encodeUtf8Char, if_neg (by omega), if_neg (by omega), if_neg (by omega)]
    have e1 : 0xF0 + ((b - 0xF0) * 262144 + (b1 - 0x80) * 4096 + (b2 - 0x80) * 64
        + (b3 - 0x80)) / 262144 = b := by omega
    have e2 : 0x80 + ((b - 0xF0) * 262144 + (b1 - 0x80) * 4096 + (b2 - 0x80) * 64
        + (b3 - 0x80)) / 4096 % 64 = b1 := by omega
    have e3 : 0x80 + ((b - 0xF0) * 262144 + (b1 - 0x80) * 4096 + (b2 - 0x80) * 64
        + (b3 - 0x80)) / 64 % 64 = b2 := by omega
    have e4 : 0x80 + ((b - 0xF0) * 262144 + (b1 - 0x80) * 4096 + (b2 - 0x80) * 64
        + (b3 - 0x80)) % 64 = b3 := by omega
    rw [e1, e2, e3, e4]
  have h4 := ValidUtf8.cons
    ((b - 0xF0) * 262144 + (b1 - 0x80) * 4096 + (b2 - 0x80) * 64 + (b3 - 0x80))
    rest hs h
  rw [he] at h4
  exact h4

/-- Completeness of the validator: valid UTF-8 text always passes, from any
starting offset. -/
theorem runUtf8_complete {l : List Nat} (h : ValidUtf8 l) :
    ∀ i, runUtf8 l i = .ok () := by
  induction h with
  | nil => intro i; rfl
  | cons c rest hs hv ih =>
    intro i
    obtain ⟨hle, hsur⟩ := hs
    by_cases h1 : c ≤ 0x7F
    · have he : encodeUtf8Char c = [c] := by rw [encodeUtf8Char, if_pos h1]
      rw [he, List.cons_append, List.nil_append, runUtf8_ascii h1, ih]
    · by_cases h2 : c ≤ 0x7FF
      · have he : encodeUtf8Char c = [0xC0 + c / 64, 0x80 + c % 64] := by
          rw [encodeUtf8Char, if_neg h1, if_pos h2]
        rw [he, List.cons_append, List.cons_append, List.nil_append,
          runUtf8_two (by omega) (by omega)
            (by simp only [utf8Cont, decide_eq_true_eq]; omega), ih]
      · by_cases h3 : c ≤ 0xFFFF
        · have he : encodeUtf8Char c =
              [0xE0 + c / 4096, 0x80 + c / 64 % 64, 0x80 + c % 64] := by
            rw [encodeUtf8Char, if_neg h1, if_neg h2, if_pos h3]
          rw [he, List.cons_append, List.cons_append, List.cons_append,
            List.nil_append,
            runUtf8_three (by omega) (by omega)
              (by simp only [utf8Sec3, decide_eq_true_eq]; omega)
              (by simp only [utf8Cont, decide_eq_true_eq]; omega), ih]
        · have he : encodeUtf8Char c = [0xF0 + c / 262144, 0x80 + c / 4096 % 64,
              0x80 + c / 64 % 64, 0x80 + c % 64] := by
            rw [encodeUtf8Char, if_neg h1, if_neg h2, if_neg h3]
          rw [he, List.cons_append, List.cons_append, List.cons_append,
            List.cons_append, List.nil_append,
            runUtf8_four (by omega) (by omega)
              (by simp only [utf8Sec4, decide_eq_true_eq]; omega)
              (by simp only [utf8Cont, decide_eq_true_eq]; omega)
              (by simp only [utf8Cont, decide_eq_true_eq]; omega), ih]

/-- At an error leaf the reported offset is the current position, so the
consumed-so-far part of the suffix is empty and trivially valid. -/
theorem invertErrHere (l : List Nat) {i : Nat} {e : Utf8Error} {el : Option Nat}
    (he : (Except.error ⟨i, el⟩ : Except Utf8Error Unit) = .error e) :
    i ≤ e.valid_up_to ∧ ValidUtf8 (l.take (e.valid_up_to - i)) := by
  injection he with he1
  subst he1
  refine ⟨Nat.le_refl i, ?_⟩
  show ValidUtf8 (l.take (i - i))
  rw [Nat.sub_self, List.take_zero]
  exact .nil

/-- Soundness of the validator together with the first-invalid-offset
property, by strong induction on the length of the byte list: success means
the bytes are valid UTF-8, and an error reports an offset at or after the
start whose preceding bytes are valid UTF-8. -/
theorem runUtf8_invert (n : Nat) : ∀ l : List Nat, l.length ≤ n → ∀ i : Nat,
    (runUtf8 l i = .ok () → ValidUtf8 l) ∧
    (∀ e : Utf8Error, runUtf8 l i = .error e →
      i ≤ e.valid_up_to ∧ ValidUtf8 (l.take (e.valid_up_to - i))) := by
  induction n with
  | zero =>
    intro l hl i
    have hnil : l = [] := by
      cases l with
      | nil => rfl
      | cons b rest => simp at hl
    subst hnil
    refine ⟨fun _ => .nil, fun e he => ?_⟩
    simp only [runUtf8] at he
    exact Except.noConfusion he
  | succ n ih =>
    intro l hl i
    cases l with
    | nil =>
      refine ⟨fun _ => .nil, fun e he => ?_⟩
      simp only [runUtf8] at he
      exact Except.noConfusion he
    | cons b rest =>
      by_cases hb1 : b ≤ 0x7F
      · have hred := runUtf8_ascii hb1 rest i
        have ihr := ih rest (by simp at hl; omega) (i + 1)
        refine ⟨fun h => ?_, fun e he => ?_⟩
        · rw [hred] at h
          exact validUtf8_cons1 hb1 (ihr.1 h)
        · rw [hred] at he
          obtain ⟨h1, h2⟩ := ihr.2 e he
          refine ⟨by omega, ?_⟩
          have hv : e.valid_up_to - i = (e.valid_up_to - (i + 1)) + 1 := by omega
          rw [hv, List.take_succ_cons]
          exact validUtf8_cons1 hb1 h2
      · by_cases hb2 : b ≤ 0xC1
        · have hred := runUtf8_badstart (by omega) hb2 rest i
          refine ⟨fun h => ?_, fun e he => ?_⟩
          · rw [hred] at h; simp at h
          · rw [hred] at he
            exact invertErrHere _ he
        · by_cases hb3 : b ≤ 0xDF
          · cases rest with
            | nil =>
              have hred := runUtf8_two_end (by omega) hb3 i
              refine ⟨fun h => ?_, fun e he => ?_⟩
              · rw [hred] at h; simp at h
              · rw [hred] at he
                exact invertErrHere _ he
            | cons b1 r1 =>
              by_cases hc : utf8Cont b1 = true
              · have hred := runUtf8_two (by omega) hb3 hc r1 i
                have ihr := ih r1 (by simp at hl; omega) (i + 2)
                refine ⟨fun h => ?_, fun e he => ?_⟩
                · rw [hred] at h
                  exact validUtf8_cons2 (by omega) hb3 hc (ihr.1 h)
                · rw [hred] at he
                  obtain ⟨h1, h2⟩ := ihr.2 e he
                  refine ⟨by omega, ?_⟩
                  have hv : e.valid_up_to - i =
                      (e.valid_up_to - (i + 2)) + 1 + 1 := by omega
                  rw [hv, List.take_succ_cons, List.take_succ_cons]
                  exact validUtf8_cons2 (by omega) hb3 hc h2
              · have hred := runUtf8_two_badcont (by omega) hb3 hc r1 i
                refine ⟨fun h => ?_, fun e he => ?_⟩
                · rw [hred] at h; simp at h
                · rw [hred] at he
                  exact invertErrHere _ he
          · by_cases hb4 : b ≤ 0xEF
            · cases rest with
              | nil =>
                have hred := runUtf8_three_end1 (by omega) hb4 i
                refine ⟨fun h => ?_, fun e he => ?_⟩
                · rw [hred] at h; simp at h
                · rw [hred] at he
                  exact invertErrHere _ he
              | cons b1 r1 =>
                by_cases hs3 : utf8Sec3 b b1 = true
                · cases r1 with
                  | nil =>
                    have hred := runUtf8_three_end2 (by omega) hb4 hs3 i
                    refine ⟨fun h => ?_, fun e he => ?_⟩
                    · rw [hred] at h; simp at h
                    · rw [hred] at he
                      exact invertErrHere _ he
                  | cons b2 r2 =>
                    by_cases hc2 : utf8Cont b2 = true
                    · have hred := runUtf8_three (by omega) hb4 hs3 hc2 r2 i
                      have ihr := ih r2 (by simp at hl; omega) (i + 3)
                      refine ⟨fun h => ?_, fun e he => ?_⟩
                      · rw [hred] at h
                        exact validUtf8_cons3 (by omega) hb4 hs3 hc2 (ihr.1 h)
                      · rw [hred] at he
                        obtain ⟨h1, h2⟩ := ihr.2 e he
                        refine ⟨by omega, ?_⟩
                        have hv : e.valid_up_to - i =
                            (e.valid_up_to - (i + 3)) + 1 + 1 + 1 := by omega
                        rw [hv, List.take_succ_cons, List.take_succ_cons,
                          List.take_succ_cons]
                        exact validUtf8_cons3 (by omega) hb4 hs3 hc2 h2
                    · have hred := runUtf8_three_badcont (by omega) hb4 hs3 hc2 r2 i
                      refine ⟨fun h => ?_, fun e he => ?_⟩
                      · rw [hred] at h; simp at h
                      · rw [hred] at he
                        exact invertErrHere _ he
                · have hred := runUtf8_three_badsec (by omega) hb4 hs3 r1 i
                  refine ⟨fun h => ?_, fun e he => ?_⟩
                  · rw [hred] at h; simp at h
                  · rw [hred] at he
                    exact invertErrHere _ he
            · by_cases hb5 : b ≤ 0xF4
              · cases rest with
                | nil =>
                  have hred := runUtf8_four_end1 (by omega) hb5 i
                  refine ⟨fun h => ?_, fun e he => ?_⟩
                  · rw [hred] at h; simp at h
                  · rw [hred] at he
                    exact invertErrHere _ he
                | cons b1 r1 =>
                  by_cases hs4 : utf8Sec4 b b1 = true
                  · cases r1 with
                    | nil =>
                      have hred := runUtf8_four_end2 (by omega) hb5 hs4 i
                      refine ⟨fun h => ?_, fun e he => ?_⟩
                      · rw [hred] at h; simp at h
                      · rw [hred] at he
                        exact invertErrHere _ he
                    | cons b2 r2 =>
                      by_cases hc2 : utf8Cont b2 = true
                      · cases r2 with
                        | nil =>
                          have hred := runUtf8_four_end3 (by omega) hb5 hs4 hc2 i
                          refine ⟨fun h => ?_, fun e he => ?_⟩
                          · rw [hred] at h; simp at h
                          · rw [hred] at he
                            exact invertErrHere _ he
                        | cons b3 r3 =>
                          by_cases hc3 : utf8Cont b3 = true
                          · have hred := runUtf8_four (by omega) hb5 hs4 hc2 hc3 r3 i
                            have ihr := ih r3 (by simp at hl; omega) (i + 4)
                            refine ⟨fun h => ?_, fun e he => ?_⟩
                            · rw [hred] at h
                              exact validUtf8_cons4 (by omega) hb5 hs4 hc2 hc3
                                (ihr.1 h)
                            · rw [hred] at he
                              obtain ⟨h1, h2⟩ := ihr.2 e he
                              refine ⟨by omega, ?_⟩
                              have hv : e.valid_up_to - i =
                                  (e.valid_up_to - (i + 4)) + 1 + 1 + 1 + 1 := by
                                omega
                              rw [hv, List.take_succ_cons, List.take_succ_cons,
                                List.take_succ_cons, List.take_succ_cons]
                              exact validUtf8_cons4 (by omega) hb5 hs4 hc2 hc3 h2
                          · have hred :=
                              runUtf8_four_badcont3 (by omega) hb5 hs4 hc2 hc3 r3 i
                            refine ⟨fun h => ?_, fun e he => ?_⟩
                            · rw [hred] at h; simp at h
                            · rw [hred] at he
                              exact invertErrHere _ he
                      · have hred := runUtf8_four_badcont2 (by omega) hb5 hs4 hc2 r2 i
                        refine ⟨fun h => ?_, fun e he => ?_⟩
                        · rw [hred] at h; simp at h
                        · rw [hred] at he
                          exact invertErrHere _ he
                  · have hred := runUtf8_four_badsec (by omega) hb5 hs4 r1 i
                    refine ⟨fun h => ?_, fun e he => ?_⟩
                    · rw [hred] at h; simp at h
                    · rw [hred] at he
                      exact invertErrHere _ he
              · have hred := runUtf8_hi (show 0xF5 ≤ b by omega) rest i
                refine ⟨fun h => ?_, fun e he => ?_⟩
                · rw [hred] at h; simp at h
                · rw [hred] at he
                  exact invertErrHere _ he

/-- Soundness: if the validator accepts, the bytes are valid UTF-8. -/
theorem runUtf8_sound {l : List Nat} {i : Nat} (h : runUtf8 l i = .ok ()) :
    ValidUtf8 l :=
  (runUtf8_invert l.length l (Nat.le_refl _) i).1 h

/-- An error from offset 0 reports the byte offset of the first invalid
sequence: everything before it is valid UTF-8. -/
theorem runUtf8_err_first {l : List Nat} {e : Utf8Error}
    (h : runUtf8 l 0 = .error e) : ValidUtf8 (l.take e.valid_up_to) := by
  have h2 := ((runUtf8_invert l.length l (Nat.le_refl _) 0).2 e h).2
  rwa [Nat.sub_zero] at h2

/-- The validator decides ValidUtf8. -/
theorem runUtf8_ok_iff (l : List Nat) :
    runUtf8 l 0 = .ok () ↔ ValidUtf8 l := by
  constructor
  · exact runUtf8_sound
  · exact fun h => runUtf8_complete h 0

/-! ### Frame lemmas: which operations leave allocation contents alone -/

theorem Bytes.clone_fst_mem (b : Bytes) (w : World) :
    ((b.clone w).1).mem = w.mem := by
  cases h : b.backing <;> simp [Bytes.clone, h]

theorem Bytes.clone_fst_next (b : Bytes) (w : World) :
    ((b.clone w).1).next = w.next := by
  cases h : b.backing <;> simp [Bytes.clone, h]

theorem Bytes.clone_snd (b : Bytes) (w : World) : (b.clone w).2 = b := by
  cases h : b.backing <;> simp [Bytes.clone, h]

theorem Bytes.dropRef_mem (b : Bytes) (w : World) : (b.dropRef w).mem = w.mem := by
  cases h : b.backing <;> simp [Bytes.dropRef, h]

theorem Backing.data_congr {w w2 : World} (bk : Backing) (h : w2.mem = w.mem) :
    bk.data w2 = bk.data w := by
  cases bk <;> simp [Backing.data, h]

theorem Bytes.view_congr {w w2 : World} (b : Bytes) (h : w2.mem = w.mem) :
    b.view w2 = b.view w := by
  unfold Bytes.view
  rw [Backing.data_congr _ h]

theorem Bytes.wf_congr {w w2 : World} {b : Bytes} (h : w2.mem = w.mem)
    (hwf : b.Wf w) : b.Wf w2 := by
  unfold Bytes.Wf at hwf ⊢
  rw [Backing.data_congr _ h]
  exact hwf

/-! ### Inversion lemmas for the fallible operations -/

theorem from_utf8_ok_inv {b : Bytes} {w : World} {s : ByteStr}
    (h : ByteStr.from_utf8 b w = .ok s) :
    s = ⟨b⟩ ∧ runUtf8 (b.view w) 0 = .ok () := by
  unfold ByteStr.from_utf8 at h
  cases hrun : runUtf8 (b.view w) 0 with
  | ok u =>
    cases u
    rw [hrun] at h
    injection h with h2
    exact ⟨h2.symm, rfl⟩
  | error e =>
    rw [hrun] at h
    exact Except.noConfusion h

theorem from_utf8_error_inv {b : Bytes} {w : World} {e : Utf8Error}
    (h : ByteStr.from_utf8 b w = .error e) : runUtf8 (b.view w) 0 = .error e := by
  unfold ByteStr.from_utf8 at h
  cases hrun : runUtf8 (b.view w) 0 with
  | ok u =>
    cases u
    rw [hrun] at h
    exact Except.noConfusion h
  | error e2 =>
    rw [hrun] at h
    injection h with h2
    rw [h2]

theorem slice_ref_some_inv {b : Bytes} {w w2 : World} {r : Bytes} {sub : StrRef}
    (h : b.slice_ref w sub = some (w2, r)) :
    b.ContainsRef sub ∧ w2 = (b.clone w).1 ∧ r = ⟨b.backing, sub.off, sub.len⟩ := by
  unfold Bytes.slice_ref at h
  by_cases hc : b.ContainsRef sub
  · rw [if_pos hc] at h
    have h2 := Option.some.inj h
    exact ⟨hc, (congrArg Prod.fst h2).symm, (congrArg Prod.snd h2).symm⟩
  · rw [if_neg hc] at h
    exact Option.noConfusion h

theorem slice_ref_none_inv {b : Bytes} {w : World} {sub : StrRef}
    (hc : ¬b.ContainsRef sub) : b.slice_ref w sub = none := by
  unfold Bytes.slice_ref
  rw [if_neg hc]

theorem from_slice_of_some_inv {sub : StrRef} {b : Bytes} {w w2 : World}
    {s : ByteStr} (h : ByteStr.from_slice_of sub b w = some (w2, s)) :
    b.ContainsRef sub ∧ w2 = (b.clone w).1 ∧
      s = ⟨⟨b.backing, sub.off, sub.len⟩⟩ := by
  unfold ByteStr.from_slice_of at h
  cases hsr : b.slice_ref w sub with
  | none => rw [hsr] at h; exact Option.noConfusion h
  | some p =>
    obtain ⟨w3, r⟩ := p
    rw [hsr] at h
    have h2 := Option.some.inj h
    have h3 : w3 = w2 ∧ (⟨r⟩ : ByteStr) = s := by
      exact ⟨congrArg Prod.fst h2, congrArg Prod.snd h2⟩
    obtain ⟨rfl, rfl⟩ := h3
    obtain ⟨hc, hw3, hr⟩ := slice_ref_some_inv hsr
    exact ⟨hc, hw3, by rw [hr]⟩

/-! ### Reduction lemmas for try_mut -/

theorem try_mut_stat {s : ByteStr} {d : List Nat}
    (hbk : s.bytes.backing = .stat d) (w : World) (f : List Nat → List Nat) :
    s.try_mut w f = (w, s, false) := by
  unfold ByteStr.try_mut
  rw [hbk]

theorem try_mut_not_unique {s : ByteStr} {id : Nat}
    (hbk : s.bytes.backing = .heap id) {w : World} (hcnt : ¬w.counts id = 1)
    (f : List Nat → List Nat) : s.try_mut w f = (w, s, false) := by
  unfold ByteStr.try_mut
  rw [hbk]
  dsimp only
  rw [if_neg hcnt]

theorem try_mut_unique {s : ByteStr} {id : Nat}
    (hbk : s.bytes.backing = .heap id) {w : World} (hcnt : w.counts id = 1)
    (f : List Nat → List Nat) :
    s.try_mut w f = ({ w with mem := upd w.mem id ((w.mem id).take s.bytes.off
      ++ f (((w.mem id).drop s.bytes.off).take s.bytes.len)
      ++ (w.mem id).drop (s.bytes.off + s.bytes.len)) }, s, true) := by
  unfold ByteStr.try_mut
  rw [hbk]
  dsimp only
  rw [if_pos hcnt]

/-- try_mut refuses exactly when the handle is not the unique owner; on the
refusal path the callback is never examined and nothing changes. -/
theorem try_mut_not_unique_eq {s : ByteStr} {w : World}
    (hu : s.is_unique w = false) (f : List Nat → List Nat) :
    s.try_mut w f = (w, s, false) := by
  unfold ByteStr.is_unique Bytes.is_unique at hu
  cases hbk : s.bytes.backing with
  | stat d => exact try_mut_stat hbk w f
  | heap id =>
    rw [hbk] at hu
    simp only [decide_eq_false_iff_not] at hu
    exact try_mut_not_unique hbk hu f

/-- A fresh allocation's view is exactly the copied bytes. -/
theorem copy_view (w : World) (d : List Nat) :
    ((ByteStr.copy_from_str d w).2).bytes.view (ByteStr.copy_from_str d w).1
      = d := by
  show ((upd w.mem w.next d w.next).drop 0).take d.length = d
  simp [upd]

/-- A fresh allocation's handle is well-formed. -/
theorem copy_wf (w : World) (d : List Nat) :
    ((ByteStr.copy_from_str d w).2).bytes.Wf (ByteStr.copy_from_str d w).1 := by
  show 0 + d.length ≤ (upd w.mem w.next d w.next).length
  simp [upd]

/-- A static handle's view is exactly the static bytes. -/
theorem static_view (w : World) (d : List Nat) :
    (ByteStr.from_static d).bytes.view w = d := by
  show (d.drop 0).take d.length = d
  rw [List.drop_zero, List.take_length]

theorem static_wf (w : World) (d : List Nat) :
    (ByteStr.from_static d).bytes.Wf w := by
  show 0 + d.length ≤ d.length
  omega

/-- The successful try_mut path: splicing the edited view back into the
allocation preserves well-formedness, and the new view is exactly the
callback's output, hence valid UTF-8 when the callback preserves validity
and byte length. -/
theorem try_mut_unique_wf_valid {s : ByteStr} {id : Nat}
    (hbk : s.bytes.backing = .heap id) {w : World} (hcnt : w.counts id = 1)
    (f : List Nat → List Nat)
    (hwf : s.bytes.Wf w) (hv : ValidUtf8 (s.bytes.view w))
    (hf : ∀ v, ValidUtf8 v → ValidUtf8 (f v))
    (hlen : ∀ v, (f v).length = v.length) :
    ((s.try_mut w f).2.1).bytes.Wf (s.try_mut w f).1 ∧
      ValidUtf8 (((s.try_mut w f).2.1).bytes.view (s.try_mut w f).1) := by
  rw [try_mut_unique hbk hcnt f]
  unfold Bytes.Wf at hwf ⊢
  unfold Bytes.view at hv ⊢
  rw [hbk] at hwf hv ⊢
  simp only [Backing.data] at hwf hv ⊢
  simp only [upd, if_true]
  have hto : ((w.mem id).take s.bytes.off).length = s.bytes.off := by
    rw [List.length_take]
    omega
  have hvlen : (((w.mem id).drop s.bytes.off).take s.bytes.len).length
      = s.bytes.len := by
    rw [List.length_take, List.length_drop]
    omega
  have hfv : (f (((w.mem id).drop s.bytes.off).take s.bytes.len)).length
      = s.bytes.len := by
    rw [hlen _, hvlen]
  constructor
  · rw [List.length_append, List.length_append, hto, hfv, List.length_drop]
    omega
  · rw [List.append_assoc, List.drop_left' hto, List.take_left' hfv]
    exact hf _ hv

/-- Every safely-reachable handle is well-formed, and the bytes visible
through it are valid UTF-8 — the ByteStr invariant. -/
theorem built_wf_valid {w : World} {s : ByteStr} (h : Built w s) :
    s.bytes.Wf w ∧ ValidUtf8 (s.bytes.view w) := by
  induction h with
  | new w =>
    exact ⟨Nat.le_refl 0, .nil⟩
  | from_utf8 w b s hwf h =>
    obtain ⟨rfl, hrun⟩ := from_utf8_ok_inv h
    exact ⟨hwf, runUtf8_sound hrun⟩
  | from_static w d hv =>
    refine ⟨static_wf w d, ?_⟩
    rw [static_view]
    exact hv
  | copy_from_str w d hv =>
    refine ⟨copy_wf w d, ?_⟩
    rw [copy_view]
    exact hv
  | from_string w d hv =>
    refine ⟨copy_wf w d, ?_⟩
    show ValidUtf8 ((ByteStr.copy_from_str d w).2.bytes.view
      (ByteStr.copy_from_str d w).1)
    rw [copy_view w d]
    exact hv
  | from_cow w c hv =>
    cases c with
    | borrowed d =>
      refine ⟨static_wf w d, ?_⟩
      show ValidUtf8 ((ByteStr.from_static d).bytes.view w)
      rw [static_view]
      exact hv
    | owned d =>
      refine ⟨copy_wf w d, ?_⟩
      show ValidUtf8 ((ByteStr.copy_from_str d w).2.bytes.view
        (ByteStr.copy_from_str d w).1)
      rw [copy_view w d]
      exact hv
  | from_slice_of w w2 sub b s hwf hv h =>
    obtain ⟨hc, rfl, rfl⟩ := from_slice_of_some_inv h
    obtain ⟨hcb, hco, hcl⟩ := hc
    have hmem := Bytes.clone_fst_mem b w
    unfold Bytes.Wf at hwf
    constructor
    · show sub.off + sub.len ≤
        ((Backing.data b.backing (b.clone w).1).length)
      rw [Backing.data_congr _ hmem]
      omega
    · show ValidUtf8 (((Backing.data b.backing (b.clone w).1).drop
        sub.off).take sub.len)
      rw [Backing.data_congr _ hmem]
      unfold StrRef.view at hv
      rw [hcb] at hv
      exact hv
  | slice_ref w w2 s r sub hb hv h ih =>
    obtain ⟨hc, rfl, rfl⟩ := from_slice_of_some_inv h
    obtain ⟨hcb, hco, hcl⟩ := hc
    have hmem := Bytes.clone_fst_mem s.bytes w
    have hwf := ih.1
    unfold Bytes.Wf at hwf
    constructor
    · show sub.off + sub.len ≤
        ((Backing.data s.bytes.backing (s.bytes.clone w).1).length)
      rw [Backing.data_congr _ hmem]
      omega
    · show ValidUtf8 (((Backing.data s.bytes.backing
        (s.bytes.clone w).1).drop sub.off).take sub.len)
      rw [Backing.data_congr _ hmem]
      unfold StrRef.view at hv
      rw [hcb] at hv
      exact hv
  | slice_orig w w2 s r sub hb h ih =>
    obtain ⟨hc, rfl, rfl⟩ := from_slice_of_some_inv h
    have hmem := Bytes.clone_fst_mem s.bytes w
    exact ⟨Bytes.wf_congr hmem ih.1, by rw [Bytes.view_congr _ hmem]; exact ih.2⟩
  | clear w s hb ih =>
    have hwf := ih.1
    unfold Bytes.Wf at hwf
    constructor
    · show s.bytes.off + 0 ≤ (Backing.data s.bytes.backing w).length
      omega
    · show ValidUtf8 (((Backing.data s.bytes.backing w).drop s.bytes.off).take 0)
      rw [List.take_zero]
      exact .nil
  | try_mut w s f hb hf hlen ih =>
    obtain ⟨ihwf, ihv⟩ := ih
    cases hbk : s.bytes.backing with
    | stat d =>
      rw [try_mut_stat hbk w f]
      exact ⟨ihwf, ihv⟩
    | heap id =>
      by_cases hcnt : w.counts id = 1
      · exact try_mut_unique_wf_valid hbk hcnt f ihwf ihv hf hlen
      · rw [try_mut_not_unique hbk hcnt f]
        exact ⟨ihwf, ihv⟩
  | clone w s hb ih =>
    have hmem := Bytes.clone_fst_mem s.bytes w
    have hsnd := Bytes.clone_snd s.bytes w
    constructor
    · show ((s.bytes.clone w).2).Wf (s.bytes.clone w).1
      rw [hsnd]
      exact Bytes.wf_congr hmem ih.1
    · show ValidUtf8 (((s.bytes.clone w).2).view (s.bytes.clone w).1)
      rw [hsnd, Bytes.view_congr _ hmem]
      exact ih.2
  | clone_orig w s hb ih =>
    have hmem := Bytes.clone_fst_mem s.bytes w
    refine ⟨Bytes.wf_congr hmem ih.1, ?_⟩
    show ValidUtf8 (s.bytes.view (s.bytes.clone w).1)
    rw [Bytes.view_congr _ hmem]
    exact ih.2
  | drop_other w s t hb ih =>
    have hmem := Bytes.dropRef_mem t.bytes w
    refine ⟨Bytes.wf_congr hmem ih.1, ?_⟩
    show ValidUtf8 (s.bytes.view (t.bytes.dropRef w))
    rw [Bytes.view_congr _ hmem]
    exact ih.2

/-! ### Claim theorems -/

/-- C1: for every ByteStr handle reachable through the validated, static,
copying, or conversion construction paths, and after every public operation
on it (new, from_utf8, from_static, copy_from_str, from_slice_of, slice_ref,
clear, try_mut, clone, the From impls), the bytes visible through the handle
are valid UTF-8, so as_str always yields a well-formed string. -/
theorem c1_utf8_invariant {w : World} {s : ByteStr} (h : Built w s) :
    ValidUtf8 (s.as_str w) :=
  (built_wf_valid h).2

/-- Witness for C1 at a concrete construction: copy_from_str of "hi". -/
theorem c1_utf8_invariant_witness :
    ValidUtf8 ((ByteStr.copy_from_str [104, 105] World.empty).2.as_str
      (ByteStr.copy_from_str [104, 105] World.empty).1) :=
  c1_utf8_invariant (Built.copy_from_str World.empty [104, 105]
    (@runUtf8_sound [104, 105] 0 rfl))

/-- C2: for every byte sequence that is valid UTF-8, from_utf8 returns Ok,
wrapping the very input without copying, and the bytes of the resulting
handle (as_bytes / AsRef) are exactly the input bytes. -/
theorem c2_from_utf8_roundtrip (w : World) (b : Bytes)
    (hv : ValidUtf8 (b.view w)) :
    ByteStr.from_utf8 b w = .ok ⟨b⟩ ∧
      (ByteStr.mk b).as_bytes w = b.view w := by
  refine ⟨?_, rfl⟩
  unfold ByteStr.from_utf8
  rw [runUtf8_complete hv 0]

/-- Witness for C2 at the static bytes of "hi". -/
theorem c2_from_utf8_roundtrip_witness :
    ByteStr.from_utf8 (Bytes.from_static [104, 105]) World.empty
        = .ok ⟨Bytes.from_static [104, 105]⟩ ∧
      (ByteStr.mk (Bytes.from_static [104, 105])).as_bytes World.empty
        = (Bytes.from_static [104, 105]).view World.empty :=
  c2_from_utf8_roundtrip World.empty (Bytes.from_static [104, 105])
    (@runUtf8_sound ((Bytes.from_static [104, 105]).view World.empty) 0 rfl)

/-- C3: with A = copy_from_str("Content-Type") and B = A.clone(), the first
try_mut(make_ascii_lowercase) returns false and leaves A's content
unchanged; after B is dropped, try_mut returns true and A's content becomes
"content-type". -/
theorem c3_uniqueness_gating :
    c3Try1.2.2 = false ∧
    (c3Try1.2.1).as_str c3Try1.1 = contentTypeBytes ∧
    c3Try2.2.2 = true ∧
    (c3Try2.2.1).as_str c3Try2.1 = contentTypeLower := by
  refine ⟨rfl, by decide, rfl, by decide⟩

/-- C4: whenever the backing allocation is shared with another holder (or is
static), try_mut refuses: it returns false, leaves the handle, its content
and the world untouched, and never invokes the callback — the outcome does
not depend on the callback at all.  The refusal is only the boolean result
of a total function: no error value and no panic exists on this path. -/
theorem c4_try_mut_refusal (w : World) (s : ByteStr)
    (hsh : s.shared_elsewhere w = true) (f g : List Nat → List Nat) :
    s.try_mut w f = (w, s, false) ∧ s.try_mut w f = s.try_mut w g := by
  cases hbk : s.bytes.backing with
  | stat d =>
    exact ⟨try_mut_stat hbk w f,
      (try_mut_stat hbk w f).trans (try_mut_stat hbk w g).symm⟩
  | heap id =>
    unfold ByteStr.shared_elsewhere at hsh
    rw [hbk] at hsh
    simp only [decide_eq_true_eq] at hsh
    have hne : ¬w.counts id = 1 := by omega
    exact ⟨try_mut_not_unique hbk hne f,
      (try_mut_not_unique hbk hne f).trans (try_mut_not_unique hbk hne g).symm⟩

/-- Witness for C4 on the shared allocation of the clone scenario. -/
theorem c4_try_mut_refusal_witness :
    (c3A.2).try_mut c3B.1 make_ascii_lowercase = (c3B.1, c3A.2, false) ∧
    (c3A.2).try_mut c3B.1 make_ascii_lowercase
      = (c3A.2).try_mut c3B.1 (fun v => v) :=
  c4_try_mut_refusal c3B.1 c3A.2 (by decide) make_ascii_lowercase (fun v => v)

/-- C5: for the bytes [48 65 FF 6C 6C 6F], from_utf8 fails and the error
carries first-invalid-byte offset 2; in general a from_utf8 failure is an
ordinary result value whose offset marks the first invalid sequence: the
bytes before it are valid UTF-8 and the whole input is not. -/
theorem c5_error_offset :
    ByteStr.from_utf8 heBytes World.empty = .error ⟨2, some 1⟩ ∧
    (∀ (w : World) (b : Bytes) (e : Utf8Error),
      ByteStr.from_utf8 b w = .error e →
        ValidUtf8 ((b.view w).take e.valid_up_to) ∧ ¬ValidUtf8 (b.view w)) := by
  refine ⟨rfl, ?_⟩
  intro w b e h
  have hrun := from_utf8_error_inv h
  refine ⟨runUtf8_err_first hrun, ?_⟩
  intro hval
  rw [runUtf8_complete hval 0] at hrun
  exact Except.noConfusion hrun

/-- Witness for C5's general part, at the concrete rejected input. -/
theorem c5_error_offset_witness :
    ValidUtf8 ((heBytes.view World.empty).take 2) ∧
      ¬ValidUtf8 (heBytes.view World.empty) :=
  c5_error_offset.2 World.empty heBytes ⟨2, some 1⟩ rfl

/-- C6: slicing with a subset whose address range does not lie within the
buffer fails fast (no handle is ever produced, so no silently wrong content);
when the subset lies within the range, the result shares the same backing
allocation (no allocation is created: memory and the fresh-id source are
untouched) and its content equals the subset.  ByteStr::slice_ref is the
same operation applied to the handle's own storage. -/
theorem c6_slice_fail_fast (w : World) (b : Bytes) (sub : StrRef) :
    (¬b.ContainsRef sub →
      b.slice_ref w sub = none ∧ ByteStr.from_slice_of sub b w = none) ∧
    (b.ContainsRef sub →
      ∃ w2 r, ByteStr.from_slice_of sub b w = some (w2, r) ∧
        r.bytes.backing = b.backing ∧ r.as_str w2 = sub.view w ∧
        w2.mem = w.mem ∧ w2.next = w.next) ∧
    (∀ s : ByteStr, s.slice_ref sub w = ByteStr.from_slice_of sub s.bytes w) := by
  refine ⟨fun hc => ⟨slice_ref_none_inv hc, ?_⟩, fun hc => ?_, fun s => rfl⟩
  · unfold ByteStr.from_slice_of
    rw [slice_ref_none_inv hc]
  · refine ⟨(b.clone w).1, ⟨⟨b.backing, sub.off, sub.len⟩⟩, ?_, rfl, ?_, ?_, ?_⟩
    · unfold ByteStr.from_slice_of Bytes.slice_ref
      rw [if_pos hc]
    · show ((b.backing.data (b.clone w).1).drop sub.off).take sub.len
        = sub.view w
      rw [Backing.data_congr _ (Bytes.clone_fst_mem b w)]
      unfold StrRef.view
      rw [hc.1]
    · exact Bytes.clone_fst_mem b w
    · exact Bytes.clone_fst_next b w

/-- Witness for C6: both directions at concrete inputs over "ab". -/
theorem c6_slice_fail_fast_witness :
    ((Bytes.from_static [97, 98]).slice_ref World.empty
        ⟨.stat [120], 0, 1⟩ = none ∧
      ByteStr.from_slice_of ⟨.stat [120], 0, 1⟩
        (Bytes.from_static [97, 98]) World.empty = none) ∧
    (∃ w2 r, ByteStr.from_slice_of ⟨.stat [97, 98], 1, 1⟩
        (Bytes.from_static [97, 98]) World.empty = some (w2, r) ∧
      r.bytes.backing = (Bytes.from_static [97, 98]).backing ∧
      r.as_str w2 = StrRef.view ⟨.stat [97, 98], 1, 1⟩ World.empty ∧
      w2.mem = World.empty.mem ∧ w2.next = World.empty.next) :=
  ⟨(c6_slice_fail_fast World.empty (Bytes.from_static [97, 98])
      ⟨.stat [120], 0, 1⟩).1 (by decide),
   (c6_slice_fail_fast World.empty (Bytes.from_static [97, 98])
      ⟨.stat [97, 98], 1, 1⟩).2.1 (by decide)⟩

/-- C7: clear always succeeds with no condition on sharing; afterwards the
handle's content is empty (view length zero, same backing), the world is
untouched, and the content seen by every other handle is unchanged. -/
theorem c7_clear_frame (w : World) (s : ByteStr) :
    ((s.clear w).2).as_str (s.clear w).1 = [] ∧
    (s.clear w).1 = w ∧
    (∀ t : ByteStr, t.as_str (s.clear w).1 = t.as_str w) ∧
    ((s.clear w).2).bytes.backing = s.bytes.backing := by
  exact ⟨rfl, rfl, fun t => rfl, rfl⟩

/-- C8: static and no-allocation handles (from_static, new; clones return
the identical handle) are never unique, and try_mut on a static-backed
handle always returns false without consulting the callback; in general
is_unique is true exactly when the handle's heap allocation has reference
count one. -/
theorem c8_static_never_unique :
    (∀ (w : World) (d : List Nat),
      (ByteStr.from_static d).is_unique w = false) ∧
    (∀ w : World, ByteStr.new.is_unique w = false) ∧
    (∀ (w : World) (s : ByteStr), (s.clone w).2 = s) ∧
    (∀ (w : World) (s : ByteStr) (d : List Nat) (f g : List Nat → List Nat),
      s.bytes.backing = .stat d →
      s.try_mut w f = (w, s, false) ∧ s.try_mut w f = s.try_mut w g) ∧
    (∀ (w : World) (s : ByteStr),
      s.is_unique w = true ↔
        ∃ id, s.bytes.backing = .heap id ∧ w.counts id = 1) := by
  refine ⟨fun w d => rfl, fun w => rfl, ?_, ?_, ?_⟩
  · intro w s
    show (⟨(s.bytes.clone w).2⟩ : ByteStr) = s
    rw [Bytes.clone_snd]
  · intro w s d f g hbk
    exact ⟨try_mut_stat hbk w f,
      (try_mut_stat hbk w f).trans (try_mut_stat hbk w g).symm⟩
  · intro w s
    unfold ByteStr.is_unique Bytes.is_unique
    cases hbk : s.bytes.backing with
    | stat d => simp
    | heap id => simp

/-- Witness for C8: the static handle for "GET" refuses try_mut. -/
theorem c8_static_never_unique_witness :
    (ByteStr.from_static [71, 69, 84]).try_mut World.empty
        make_ascii_lowercase
      = (World.empty, ByteStr.from_static [71, 69, 84], false) ∧
    (ByteStr.from_static [71, 69, 84]).try_mut World.empty
        make_ascii_lowercase
      = (ByteStr.from_static [71, 69, 84]).try_mut World.empty
        (fun v => v) :=
  c8_static_never_unique.2.2.2.1 World.empty
    (ByteStr.from_static [71, 69, 84]) [71, 69, 84]
    make_ascii_lowercase (fun v => v) rfl

/-- C9: ByteStr equality is content equality of the decoded text, never
allocation identity: it holds iff as_str agrees, and in particular
copy_from_str("abc") equals from_static("abc") although their backing
allocations differ. -/
theorem c9_content_equality :
    (∀ (w : World) (a b : ByteStr),
      a.beq b w = true ↔ a.as_str w = b.as_str w) ∧
    (c9Pair.2).beq (ByteStr.from_static [97, 98, 99]) c9Pair.1 = true ∧
    (c9Pair.2).bytes.backing ≠ (ByteStr.from_static [97, 98, 99]).bytes.backing := by
  refine ⟨?_, by decide, by decide⟩
  intro w a b
  unfold ByteStr.beq
  rw [decide_eq_true_eq]

/-- Witness for C9: two empty handles compare equal through the iff. -/
theorem c9_content_equality_witness :
    ByteStr.new.beq ByteStr.new World.empty = true :=
  (c9_content_equality.1 World.empty ByteStr.new ByteStr.new).mpr rfl

/-- C10: for every safely-built ByteStr, re-validating the raw buffer
obtained from into_bytes succeeds and yields a handle with the same content;
into_string agrees with as_str. -/
theorem c10_raw_roundtrip {w : World} {s : ByteStr} (h : Built w s) :
    ByteStr.from_utf8 s.into_bytes w = .ok ⟨s.into_bytes⟩ ∧
    (ByteStr.mk s.into_bytes).as_str w = s.as_str w ∧
    s.into_string w = s.as_str w := by
  have hv := (built_wf_valid h).2
  refine ⟨?_, rfl, rfl⟩
  unfold ByteStr.into_bytes ByteStr.from_utf8
  rw [runUtf8_complete hv 0]

/-- Witness for C10 at the static handle for "h". -/
theorem c10_raw_roundtrip_witness :
    ByteStr.from_utf8 (ByteStr.from_static [104]).into_bytes World.empty
        = .ok ⟨(ByteStr.from_static [104]).into_bytes⟩ ∧
    (ByteStr.mk (ByteStr.from_static [104]).into_bytes).as_str World.empty
        = (ByteStr.from_static [104]).as_str World.empty ∧
    (ByteStr.from_static [104]).into_string World.empty
        = (ByteStr.from_static [104]).as_str World.empty :=
  c10_raw_roundtrip (Built.from_static World.empty [104]
    (@runUtf8_sound [104] 0 rfl))
